import Mathlib

/-!
Verification of the CSP solving engine (`003_Sati_de_Restr`): a shallow
embedding of the Python modules `001_Proble_Satis_Restri.py` (class `CSP`),
`002_Bus_Vuel_Atras.py` (`SolucionadorBacktracking`),
`004_Propa_de_Restri.py` (`revisar_arco`, `ac3`, `SolucionadorMAC`),
`005_Salt_Atras_Diri_Conf.py` (`SolucionadorBackjumping`),
`006_Bus_Loc_Min_Confli.py` (`min_conflicts`) and
`007_Acondi_Corte.py` (`resolver_arbol_csp`), together with theorems about
the embedded code.

Modelling conventions:
- Python values are embedded as `Int` (all sample problems use integers or
  an enumerable finite set of tags).
- Python dicts (`asignacion`, conflict-set dicts) are embedded as
  association lists `List (String × Int)`; `asignacion[var] = valor`
  updates in place when the key exists and appends otherwise, matching
  insertion-ordered dict semantics.
- Python sets (`vecinos`, conflict sets, `variables_conflicto`) are
  embedded as duplicate-free lists; set iteration is modelled as iteration
  in first-insertion order (CPython iterates sets in an unspecified order;
  no theorem below depends on which order is picked, and counterexamples
  are chosen to be order-independent or are evaluated on this fixed model).
- Every recursive search is embedded with an explicit structural fuel
  parameter; the entry points supply fuel that covers the recursion depth
  of the Python originals (one unit per assigned variable, plus one).
- `random.choice(lst)` is embedded by drawing an index from an explicit
  stream `rng : Nat → Nat` with a running counter, as `lst[rng k % len]`.
-/

abbrev Val := Int

abbrev Assignment := List (String × Val)

/-- Association-list lookup, first match wins (Python dict lookup). -/
def lookupA : Assignment → String → Option Val
  | [], _ => none
  | (k, v) :: r, x => if k = x then some v else lookupA r x

/-- `x in asignacion` in Python. -/
def assigned (A : Assignment) (x : String) : Bool :=
  (lookupA A x).isSome

/-- `asignacion[var] = valor`: update in place if present, append otherwise
(insertion-ordered dict assignment). -/
def setA (A : Assignment) (k : String) (v : Val) : Assignment :=
  if assigned A k then A.map (fun p => if p.1 = k then (k, v) else p)
  else A ++ [(k, v)]

def keysA (A : Assignment) : List String := A.map Prod.fst

/-- Add an element to a set-as-list unless already present. -/
def addUniq (l : List String) (x : String) : List String :=
  if x ∈ l then l else l ++ [x]

/-- Set union on set-as-lists (`a.union(b)`). -/
def unionL (a b : List String) : List String :=
  b.foldl addUniq a

/-- Pointwise update of a domain map (`dominios[x] = l`). -/
def updD (d : String → List Val) (x : String) (l : List Val) : String → List Val :=
  fun y => if y = x then l else d y

/-- The CSP data model shared by all the Python modules: `self.variables`
(here `vars`, since `variables` is reserved in Lean), `self.dominios`
(dict variable → list of values) and `self.restricciones`
(dict tuple-of-variables → predicate over the matching values). -/
structure CSP where
  vars : List String
  dominios : String → List Val
  restricciones : List (List String × (List Val → Bool))

/-- `CSP._calcular_vecinos` restricted to one variable: all variables
co-occurring with `v` in some constraint scope (a Python set, modelled in
first-insertion order). -/
def vecinosDe (csp : CSP) (v : String) : List String :=
  csp.restricciones.foldl
    (fun acc c =>
      if v ∈ c.1 then c.1.foldl (fun a w => if w ≠ v then addUniq a w else a) acc
      else acc)
    []

/-- `CSP._calcular_arcos` (004): both directed arcs per binary constraint
key.  (The Python version raises on a non-pair key during tuple unpacking;
non-pair keys are skipped here and all theorems touching arcs assume or use
binary keys.) -/
def arcosDe (csp : CSP) : List (String × String) :=
  csp.restricciones.foldl
    (fun acc c =>
      match c.1 with
      | [x, y] => acc ++ [(x, y), (y, x)]
      | _ => acc)
    []

/-- `all(v in asignacion_temp for v in variables_restriccion)`. -/
def allAssigned (A : Assignment) (scope : List String) : Bool :=
  scope.all (fun x => assigned A x)

/-- `tuple(asignacion_temp[v] for v in variables_restriccion)`; unassigned
positions default to 0 (they never occur where this is applied). -/
def valsOf (A : Assignment) (scope : List String) : List Val :=
  scope.map (fun x => (lookupA A x).getD 0)

/-- `CSP.es_consistente(var, valor, asignacion)`: every constraint that
involves `var` and whose scope is fully assigned under
`asignacion + {var: valor}` must hold. -/
def esConsistente (csp : CSP) (var : String) (valor : Val) (A : Assignment) : Bool :=
  let A' := setA A var valor
  csp.restricciones.all
    (fun c =>
      if var ∈ c.1 ∧ allAssigned A' c.1 then c.2 (valsOf A' c.1) else true)

/-- `CSP.es_consistente_binaria(var1, valor1, var2, valor2)` (004): consult
the constraint keyed `(var1, var2)` if present, otherwise the one keyed
`(var2, var1)` with swapped arguments, otherwise compatible. -/
def esConsistenteBinaria (csp : CSP) (x1 : String) (v1 : Val) (x2 : String) (v2 : Val) : Bool :=
  match csp.restricciones.find? (fun c => decide (c.1 = [x1, x2])) with
  | some c => c.2 [v1, v2]
  | none =>
    match csp.restricciones.find? (fun c => decide (c.1 = [x2, x1])) with
    | some c => c.2 [v2, v1]
    | none => true

/-- `CSP.obtener_variables_conflicto(var, valor, asignacion)` (005): the
assigned variables, other than `var`, of every violated fully-assigned
constraint involving `var`. -/
def conflictVars (csp : CSP) (var : String) (valor : Val) (A : Assignment) : List String :=
  let A' := setA A var valor
  csp.restricciones.foldl
    (fun acc c =>
      if var ∈ c.1 ∧ allAssigned A' c.1 ∧ c.2 (valsOf A' c.1) = false then
        c.1.foldl (fun a w => if w ≠ var ∧ assigned A w then addUniq a w else a) acc
      else acc)
    []

/-- `CSP.obtener_variables_en_conflicto(asignacion)` (006): all variables of
every violated fully-assigned constraint. -/
def variablesEnConflicto (csp : CSP) (A : Assignment) : List String :=
  csp.restricciones.foldl
    (fun acc c =>
      if allAssigned A c.1 ∧ c.2 (valsOf A c.1) = false then c.1.foldl addUniq acc
      else acc)
    []

/-- `CSP.contar_conflictos(var, valor, asignacion)` (006). -/
def contarConflictos (csp : CSP) (var : String) (valor : Val) (A : Assignment) : Nat :=
  let A' := setA A var valor
  csp.restricciones.foldl
    (fun n c =>
      if var ∈ c.1 ∧ allAssigned A' c.1 ∧ c.2 (valsOf A' c.1) = false then n + 1
      else n)
    0

/-- Bool-level check that an assignment satisfies every constraint of the
CSP (the soundness notion of §8 of the design). -/
def cumpleTodas (csp : CSP) (A : Assignment) : Bool :=
  csp.restricciones.all (fun c => c.2 (valsOf A c.1))

/-- A total solution: every variable gets a value from its domain and every
constraint with a nonempty, declared scope holds.  (Constraints with an
empty scope or with undeclared scope variables are invisible to
`es_consistente`, hence excluded from the criterion.) -/
def Sat (csp : CSP) (σ : String → Val) : Prop :=
  (∀ v ∈ csp.vars, σ v ∈ csp.dominios v) ∧
    ∀ c ∈ csp.restricciones, c.1 ≠ [] → (∀ x ∈ c.1, x ∈ csp.vars) →
      c.2 (c.1.map σ) = true

def Satisfiable (csp : CSP) : Prop := ∃ σ, Sat csp σ

/-- The function induced by an assignment list. -/
def fnOf (A : Assignment) : String → Val :=
  fun x => (lookupA A x).getD 0

/-- `SolucionadorBacktracking._seleccionar_variable_no_asignada`. -/
def firstUnassigned (csp : CSP) (A : Assignment) : Option String :=
  csp.vars.find? (fun v => !assigned A v)

/-- The `for valor in ...: ... return resultado` pattern: first non-`none`
result of `f` over the list wins. -/
def tryValues (f : Val → Option Assignment) : List Val → Option Assignment
  | [] => none
  | v :: rest =>
    match f v with
    | some r => some r
    | none => tryValues f rest

/-- `SolucionadorBacktracking._backtrack` with structural fuel (the Python
original recurses once per newly assigned variable; `resolverBacktracking`
supplies covering fuel).  An exhausted fuel or a missing unassigned
variable models the unreachable `var = None / KeyError` path as failure. -/
def btGo (csp : CSP) : Nat → Assignment → Option Assignment
  | 0, _ => none
  | n + 1, A =>
    if A.length = csp.vars.length then some A
    else
      match firstUnassigned csp A with
      | none => none
      | some var =>
        tryValues
          (fun v => if esConsistente csp var v A then btGo csp n (setA A var v) else none)
          (csp.dominios var)

/-- `SolucionadorBacktracking.resolver`. -/
def resolverBacktracking (csp : CSP) : Option Assignment :=
  btGo csp (csp.vars.length + 1) []

/-- Return type of `SolucionadorBackjumping._backjump`: an assignment on
success, a conflict set on failure, the string sentinel `"FALLO"` when the
failure is global. -/
inductive BjResult where
  | solved : Assignment → BjResult
  | conflict : List String → BjResult
  | fallo : BjResult
deriving DecidableEq

/-- The value loop of `SolucionadorBackjumping._backjump` for the current
variable `var`: `cs` is `conjuntos_conflicto[var]`, `child` is the
recursive call on the extended assignment. -/
def bjLoop (csp : CSP) (child : Assignment → BjResult) (A : Assignment) (var : String) :
    List Val → List String → BjResult
  | [], cs => if cs.isEmpty then .fallo else .conflict cs
  | v :: rest, cs =>
    if esConsistente csp var v A then
      match child (setA A var v) with
      | .solved B => .solved B
      | .fallo => bjLoop csp child A var rest cs
      | .conflict S =>
        if var ∈ S then bjLoop csp child A var rest (unionL cs (S.erase var))
        else .conflict S
    else bjLoop csp child A var rest (unionL cs (conflictVars csp var v A))

/-- `SolucionadorBackjumping._backjump` with structural fuel. -/
def bjGo (csp : CSP) : Nat → Assignment → BjResult
  | 0, _ => .fallo
  | n + 1, A =>
    if A.length = csp.vars.length then .solved A
    else
      match firstUnassigned csp A with
      | none => .fallo
      | some var => bjLoop csp (bjGo csp n) A var (csp.dominios var) []

/-- `SolucionadorBackjumping.resolver`: `FALLO` becomes `none`; any other
value (an assignment, or a conflict set that escaped to the top) is passed
through unchanged. -/
def resolverBackjumping (csp : CSP) : Option (Assignment ⊕ List String) :=
  match bjGo csp (csp.vars.length + 1) [] with
  | .solved A => some (.inl A)
  | .conflict S => some (.inr S)
  | .fallo => none

/-- `revisar_arco(csp, xi, xj, dominios)` (004): collect the values of
`dominios[xi]` with no compatible partner in `dominios[xj]`, then delete
them one by one with `list.remove`.  Returns (revisado, num_podas, new
domain map). -/
def revisarArco (csp : CSP) (xi xj : String) (doms : String → List Val) :
    Bool × Nat × (String → List Val) :=
  let elim := (doms xi).filter
    (fun a => !((doms xj).any (fun b => esConsistenteBinaria csp xi a xj b)))
  let nuevo := elim.foldl (fun d v => d.erase v) (doms xi)
  (!elim.isEmpty, elim.length, updD doms xi nuevo)

/-- The worklist loop of `ac3` with structural fuel (the Python loop runs
until the deque empties; entry points supply covering fuel, and every
theorem below holds for every fuel). -/
def ac3Loop (csp : CSP) : Nat → List (String × String) → (String → List Val) →
    Bool × (String → List Val)
  | 0, _, doms => (true, doms)
  | _ + 1, [], doms => (true, doms)
  | n + 1, (xi, xj) :: rest, doms =>
    let r := revisarArco csp xi xj doms
    if r.1 then
      if (r.2.2 xi).isEmpty then (false, r.2.2)
      else
        ac3Loop csp n
          (rest ++ ((vecinosDe csp xi).filter (fun xk => xk ≠ xj)).map (fun xk => (xk, xi)))
          r.2.2
    else ac3Loop csp n rest r.2.2

/-- Fuel that covers every run of the `ac3` worklist that the concrete
instances below perform. -/
def ac3Fuel (csp : CSP) (queue : List (String × String)) : Nat :=
  queue.length +
    ((csp.vars.map (fun v => (csp.dominios v).length)).sum + 1) *
      (csp.vars.length + 1) + 1

/-- The body of `ac3(csp, cola_arcos)` from its initial domain copy
onwards, exposed with an explicit starting domain map.  `ac3` itself always
starts from a fresh copy of the canonical `csp.dominios` (line 66 of 004) —
which is precisely what the MAC solver's call site relies on, incorrectly. -/
def ac3From (csp : CSP) (doms : String → List Val) (queue : List (String × String)) :
    Bool × (String → List Val) :=
  ac3Loop csp (ac3Fuel csp queue) queue doms

/-- `ac3(csp, cola_arcos)`: copy the canonical domains, then run the
worklist. -/
def ac3Run (csp : CSP) (queue : List (String × String)) : Bool × (String → List Val) :=
  ac3From csp csp.dominios queue

/-- `ac3(csp)` with the default queue of all arcs. -/
def ac3Full (csp : CSP) : Bool × (String → List Val) :=
  ac3Run csp (arcosDe csp)

/-- Python `min(lista, key=f)`: first element attaining the minimum. -/
def argminFirst (f : String → Nat) (l : List String) : Option String :=
  l.foldl
    (fun best x =>
      match best with
      | none => some x
      | some b => if f x < f b then some x else some b)
    none

/-- `SolucionadorMAC._seleccionar_variable_mrv`. -/
def mrvVar (csp : CSP) (A : Assignment) (doms : String → List Val) : Option String :=
  argminFirst (fun v => (doms v).length) (csp.vars.filter (fun v => !assigned A v))

/-- `SolucionadorMAC._backtrack`.  Note the faithful modelling of the bug:
`dominios_nuevos` (the current search-state domains with `var`'s domain
collapsed to `[valor]`) is built and then discarded, because
`ac3(self.csp, arcos_afectados)` restarts from the canonical
`csp.dominios`. -/
def macBack (csp : CSP) : Nat → Assignment → (String → List Val) → Option Assignment
  | 0, _, _ => none
  | n + 1, A, doms =>
    if A.length = csp.vars.length then some A
    else
      match mrvVar csp A doms with
      | none => none
      | some var =>
        tryValues
          (fun v =>
            let A' := setA A var v
            let _domsNuevosDiscarded := updD doms var [v]
            let arcos :=
              ((vecinosDe csp var).filter (fun w => !assigned A' w)).map (fun w => (w, var))
            match ac3Run csp arcos with
            | (true, domsN) => macBack csp n A' domsN
            | (false, _) => none)
          (doms var)

/-- `SolucionadorMAC.resolver`: AC-3 preprocessing, then MAC backtracking. -/
def macResolver (csp : CSP) : Option Assignment :=
  match ac3Full csp with
  | (false, _) => none
  | (true, d0) => macBack csp (csp.vars.length + 1) [] d0

/-- `random.choice(l)` with an explicit random stream and counter. -/
def chooseV (rng : Nat → Nat) (k : Nat) (l : List Val) : Val :=
  l.getD (rng k % l.length) 0

/-- `random.choice` over a list of variables. -/
def chooseS (rng : Nat → Nat) (k : Nat) (l : List String) : String :=
  l.getD (rng k % l.length) ""

/-- The loop computing `valores_minimos` in `min_conflicts`: running
minimum (`none` plays `float('inf')`) and the minimizers in domain order. -/
def minimizers (csp : CSP) (var : String) (A : Assignment) (dom : List Val) :
    Option Nat × List Val :=
  dom.foldl
    (fun acc v =>
      let n := contarConflictos csp var v A
      match acc.1 with
      | none => (some n, [v])
      | some m =>
        if n < m then (some n, [v])
        else if n = m then (some m, acc.2 ++ [v])
        else acc)
    (none, [])

/-- One `for paso in range(max_pasos)` loop of `min_conflicts`, with the
remaining step budget as fuel (exactly the Python budget) and the random
counter `k`. -/
def minConflictsGo (csp : CSP) : Nat → Assignment → (Nat → Nat) → Nat → Option Assignment
  | 0, _, _, _ => none
  | n + 1, A, rng, k =>
    let conf := variablesEnConflicto csp A
    if conf.isEmpty then some A
    else
      let var := chooseS rng k conf
      let vm := minimizers csp var A (csp.dominios var)
      minConflictsGo csp n (setA A var (chooseV rng (k + 1) vm.2)) rng (k + 2)

/-- The initial random assignment of `min_conflicts`: one `random.choice`
per variable, in declaration order. -/
def initialAssign (csp : CSP) (rng : Nat → Nat) : Assignment :=
  csp.vars.enum.foldl
    (fun A p => setA A p.2 (chooseV rng p.1 (csp.dominios p.2))) []

/-- `min_conflicts(csp, max_pasos)` with an explicit random stream. -/
def minConflicts (csp : CSP) (maxPasos : Nat) (rng : Nat → Nat) : Option Assignment :=
  minConflictsGo csp maxPasos (initialAssign csp rng) rng csp.vars.length

/-- The recursive `dfs` of `ordenar_topologicamente` (007): post-order walk
of the induced subgraph, threading `(visitados, orden)`, with fuel. -/
def dfsT (csp : CSP) (vars : List String) : Nat → String → List String × List String →
    List String × List String
  | 0, _, st => st
  | n + 1, v, st =>
    let st1 := (addUniq st.1 v, st.2)
    let st2 := (vecinosDe csp v).foldl
      (fun s w => if w ∈ vars ∧ w ∉ s.1 then dfsT csp vars n w s else s) st1
    (st2.1, st2.2 ++ [v])

/-- `ordenar_topologicamente(csp, raiz, variables)`. -/
def ordenarTopologicamente (csp : CSP) (raiz : String) (vars : List String) : List String :=
  (dfsT csp vars (vars.length + 1) raiz ([], [])).2

/-- Phase 1 of `resolver_arbol_csp`: leaves-to-root pruning of
`csp.dominios[var]` against the already fixed assignment; mutates the
canonical domain map in place (`csp.dominios[var] = valores_validos`),
so the updated map is threaded and returned even on failure. -/
def fase1 (csp : CSP) (A : Assignment) : List String → (String → List Val) →
    Bool × (String → List Val)
  | [], doms => (true, doms)
  | v :: rest, doms =>
    if assigned A v then fase1 csp A rest doms
    else
      let valid := (doms v).filter (fun val => esConsistente csp v val A)
      if valid.isEmpty then (false, updD doms v valid)
      else fase1 csp A rest (updD doms v valid)

/-- Phase 2 of `resolver_arbol_csp`: assign, in `orden`, the first value of
the (pruned) domain consistent with the assignment so far. -/
def fase2 (csp : CSP) (doms : String → List Val) : List String → Assignment → Option Assignment
  | [], A => some A
  | v :: rest, A =>
    if assigned A v then fase2 csp doms rest A
    else
      match (doms v).find? (fun val => esConsistente csp v val A) with
      | some val => fase2 csp doms rest (setA A v val)
      | none => none

/-- `resolver_arbol_csp(csp, variables, asignacion)` (007).  The second
component is the state of `csp.dominios` after the call (the Python
function prunes the canonical domain map in place during phase 1). -/
def resolverArbolCsp (csp : CSP) (vars : List String) (A : Assignment) :
    Option Assignment × (String → List Val) :=
  if vars.isEmpty then (some A, csp.dominios)
  else
    let raiz := vars.headD ""
    let orden := ordenarTopologicamente csp raiz vars
    match fase1 csp A orden.reverse csp.dominios with
    | (false, doms) => (none, doms)
    | (true, doms) =>
      match fase2 csp doms orden A with
      | some B => (some B, doms)
      | none => (none, doms)

/-- Modelled from the spec: compatibility of a value pair `(a, b)` for the
arc `(xi, xj)` as §4.4 words it — *every* constraint keyed `(xi, xj)` or
`(xj, xi)` must hold, "not just one".  Used only to compare the spec's
revision semantics against the source's `es_consistente_binaria`. -/
def specPairCompatible (csp : CSP) (xi : String) (a : Val) (xj : String) (b : Val) : Bool :=
  csp.restricciones.all
    (fun c =>
      if c.1 = [xi, xj] then c.2 [a, b]
      else if c.1 = [xj, xi] then c.2 [b, a]
      else true)

/-- Binary not-equal constraint predicate (`lambda c1, c2: c1 != c2`). -/
def neq2 : List Val → Bool
  | [a, b] => decide (a ≠ b)
  | _ => true

/-- Predicate satisfied only by the pair `(1, 1)`. -/
def both1 : List Val → Bool
  | [a, b] => decide (a = 1 ∧ b = 1)
  | _ => true

/-- Triangle graph with 2 colors: the standard unsatisfiable instance. -/
def triangleCsp : CSP :=
  { vars := ["A", "B", "C"]
    dominios := fun _ => [0, 1]
    restricciones := [(["A", "B"], neq2), (["A", "C"], neq2), (["B", "C"], neq2)] }

/-- Two variables, one not-equal constraint: a small satisfiable instance. -/
def cspW : CSP :=
  { vars := ["A", "B"]
    dominios := fun _ => [0, 1]
    restricciones := [(["A", "B"], neq2)] }

/-- Tree instance used for the domain-mutation evidence: `B` is fixed
outside the tree, `A`'s domain gets pruned in place. -/
def cspT : CSP :=
  { vars := ["A", "B"]
    dominios := fun v => if v = "B" then [1] else [0, 1]
    restricciones := [(["A", "B"], neq2)] }

/-- Tree instance on which the greedy tree solver misses the unique
solution `A = B = 1`. -/
def csp4 : CSP :=
  { vars := ["A", "B"]
    dominios := fun _ => [0, 1]
    restricciones := [(["A", "B"], both1)] }

/-- Instance with a constraint of empty scope that is always violated. -/
def cspE : CSP :=
  { vars := ["A"]
    dominios := fun _ => [0]
    restricciones := [([], fun _ => false)] }

/-- Instance with both orientations `(A, B)` and `(B, A)` as constraint
keys; the second is never consulted by `es_consistente_binaria`. -/
def cspC5 : CSP :=
  { vars := ["A", "B"]
    dominios := fun _ => [0]
    restricciones := [(["A", "B"], fun _ => true), (["B", "A"], fun _ => false)] }

/-- Unsatisfiable two-variable instance (both domains are `[0]`, values
must differ); drives one concrete conflict-set computation. -/
def cspU2 : CSP :=
  { vars := ["A", "B"]
    dominios := fun _ => [0]
    restricciones := [(["A", "B"], neq2)] }

/-- Single variable, singleton domain, no constraints. -/
def cspOne : CSP :=
  { vars := ["A"]
    dominios := fun _ => [0]
    restricciones := [] }

/-- A concrete solution of `cspW`. -/
def sigma01 : String → Val := fun x => if x = "A" then 0 else 1

/-- The all-zeros random stream. -/
def rngZero : Nat → Nat := fun _ => 0

/-- Agreement of a total valuation with an assignment on a set of
variables (the meaning of a conflict set). -/
def Agrees (σ : String → Val) (A : Assignment) (S : List String) : Prop :=
  ∀ x ∈ S, lookupA A x = some (σ x)

/-- Number of still-unassigned variables. -/
def uc (csp : CSP) (A : Assignment) : Nat :=
  (csp.vars.filter (fun v => !assigned A v)).length

/-- The incremental-consistency invariant: every fully assigned constraint
with a nonempty scope holds. -/
def ClosedA (csp : CSP) (A : Assignment) : Prop :=
  ∀ c ∈ csp.restricciones, c.1 ≠ [] → allAssigned A c.1 = true → c.2 (valsOf A c.1) = true

/-- Search-state invariant of the systematic solvers. -/
def InvA (csp : CSP) (A : Assignment) : Prop :=
  (keysA A).Nodup ∧ (∀ x ∈ keysA A, x ∈ csp.vars) ∧
    (∀ p ∈ A, p.2 ∈ csp.dominios p.1) ∧ ClosedA csp A

/-! ### Association-list lemmas -/

theorem lookupA_mem {A : Assignment} {x : String} {w : Val}
    (h : lookupA A x = some w) : (x, w) ∈ A := by
  induction A with
  | nil => simp [lookupA] at h
  | cons p r ih =>
    obtain ⟨k, v⟩ := p
    by_cases hk : k = x
    · subst hk
      simp [lookupA] at h
      simp [h]
    · simp [lookupA, hk] at h
      exact List.mem_cons_of_mem _ (ih h)

theorem assigned_iff_mem_keys {A : Assignment} {x : String} :
    assigned A x = true ↔ x ∈ keysA A := by
  induction A with
  | nil => simp [assigned, lookupA, keysA]
  | cons p r ih =>
    obtain ⟨k, v⟩ := p
    by_cases hk : k = x
    · subst hk
      simp [assigned, lookupA, keysA]
    · simp [assigned, lookupA, hk, keysA] at ih ⊢
      rw [← ih]
      constructor
      · intro h
        exact Or.inr h
      · rintro (h | h)
        · exact absurd h.symm hk
        · exact h

theorem lookupA_append_of_ne {A : Assignment} {k x : String} {v : Val}
    (h : x ≠ k) : lookupA (A ++ [(k, v)]) x = lookupA A x := by
  induction A with
  | nil => simp [lookupA, Ne.symm h]
  | cons p r ih =>
    by_cases hp : p.1 = x
    · simp [lookupA, hp]
    · simp [lookupA, hp, ih]

theorem lookupA_append_self {A : Assignment} {k : String} {v : Val}
    (h : assigned A k = false) : lookupA (A ++ [(k, v)]) k = some v := by
  induction A with
  | nil => simp [lookupA]
  | cons p r ih =>
    by_cases hp : p.1 = k
    · simp [assigned, lookupA, hp] at h
    · simp only [assigned, lookupA, hp, if_false, List.cons_append] at h ⊢
      exact ih (by simpa [assigned] using h)

theorem setA_eq_append {A : Assignment} {k : String} {v : Val}
    (h : assigned A k = false) : setA A k v = A ++ [(k, v)] := by
  simp [setA, h]

theorem lookupA_map_setter_self {A : Assignment} {k : String} (v : Val)
    (h : assigned A k = true) :
    lookupA (A.map (fun p => if p.1 = k then (k, v) else p)) k = some v := by
  induction A with
  | nil => simp [assigned, lookupA] at h
  | cons p r ih =>
    rw [List.map_cons]
    by_cases hp : p.1 = k
    · rw [if_pos hp]
      simp [lookupA]
    · rw [if_neg hp]
      have h' : assigned r k = true := by simpa [assigned, lookupA, hp] using h
      simp [lookupA, hp, ih h']

theorem lookupA_map_setter_ne {A : Assignment} {k x : String} (v : Val)
    (h : x ≠ k) :
    lookupA (A.map (fun p => if p.1 = k then (k, v) else p)) x = lookupA A x := by
  induction A with
  | nil => rfl
  | cons p r ih =>
    rw [List.map_cons]
    by_cases hp : p.1 = k
    · rw [if_pos hp]
      have hkx : ¬(k = x) := Ne.symm h
      have hpx : ¬(p.1 = x) := by rw [hp]; exact hkx
      simp [lookupA, hkx, hpx, ih]
    · rw [if_neg hp]
      by_cases hpx : p.1 = x
      · simp [lookupA, hpx]
      · simp [lookupA, hpx, ih]

theorem lookupA_setA_self (A : Assignment) (k : String) (v : Val) :
    lookupA (setA A k v) k = some v := by
  by_cases h : assigned A k
  · simp only [setA, h, if_true]
    exact lookupA_map_setter_self v h
  · rw [setA_eq_append (by simpa using h)]
    exact lookupA_append_self (by simpa using h)

theorem lookupA_setA_ne (A : Assignment) {k x : String} (v : Val)
    (h : x ≠ k) : lookupA (setA A k v) x = lookupA A x := by
  by_cases ha : assigned A k
  · simp only [setA, ha, if_true]
    exact lookupA_map_setter_ne v h
  · rw [setA_eq_append (by simpa using ha)]
    exact lookupA_append_of_ne h

theorem assigned_setA (A : Assignment) (k x : String) (v : Val) :
    assigned (setA A k v) x = (assigned A x || decide (x = k)) := by
  by_cases hx : x = k
  · subst hx
    simp [assigned, lookupA_setA_self]
  · simp [assigned, lookupA_setA_ne A v hx, hx]

theorem keysA_append (A : Assignment) (k : String) (v : Val) :
    keysA (A ++ [(k, v)]) = keysA A ++ [k] := by
  simp [keysA]

/-! ### Set-as-list lemmas -/

theorem mem_addUniq {l : List String} {x y : String} :
    x ∈ addUniq l y ↔ x ∈ l ∨ x = y := by
  by_cases h : y ∈ l
  · simp only [addUniq, h, if_true]
    constructor
    · exact Or.inl
    · rintro (hx | rfl) <;> assumption
  · simp [addUniq, h]

theorem addUniq_nodup {l : List String} (h : l.Nodup) (y : String) :
    (addUniq l y).Nodup := by
  by_cases hy : y ∈ l
  · simpa [addUniq, hy]
  · simp only [addUniq, hy, if_false]
    simp [List.nodup_append, h, hy]

theorem addUniq_ne_nil (l : List String) (y : String) : addUniq l y ≠ [] := by
  by_cases hy : y ∈ l
  · simp only [addUniq, hy, if_true]
    rintro rfl
    simp at hy
  · simp [addUniq, hy]

theorem mem_unionL {a b : List String} {x : String} :
    x ∈ unionL a b ↔ x ∈ a ∨ x ∈ b := by
  induction b generalizing a with
  | nil => simp [unionL]
  | cons y r ih =>
    simp only [unionL, List.foldl_cons] at ih ⊢
    rw [ih, mem_addUniq]
    constructor
    · rintro ((h | rfl) | h)
      · exact Or.inl h
      · simp
      · simp [h]
    · rintro (h | h)
      · exact Or.inl (Or.inl h)
      · rcases List.mem_cons.mp h with rfl | h
        · exact Or.inl (Or.inr rfl)
        · exact Or.inr h

theorem unionL_nodup {a : List String} (h : a.Nodup) (b : List String) :
    (unionL a b).Nodup := by
  induction b generalizing a with
  | nil => simpa [unionL]
  | cons y r ih =>
    simpa only [unionL, List.foldl_cons] using ih (addUniq_nodup h y)

/-! ### Generic fold helpers for the set-building loops -/

theorem foldl_keep {α : Type} {x : String} (step : List String → α → List String)
    (hstep : ∀ a c, x ∈ a → x ∈ step a c) :
    ∀ (l : List α) (acc : List String), x ∈ acc → x ∈ l.foldl step acc := by
  intro l
  induction l with
  | nil => intro acc h; simpa using h
  | cons c t ih => intro acc h; exact ih _ (hstep _ _ h)

theorem foldl_preserve_mem {α : Type} {x : String} (Q : α → Prop)
    (step : List String → α → List String) :
    ∀ (l : List α), (∀ a c, c ∈ l → x ∈ step a c → x ∈ a ∨ Q c) →
      ∀ acc, x ∈ l.foldl step acc → x ∈ acc ∨ ∃ c ∈ l, Q c := by
  intro l
  induction l with
  | nil => intro _ acc h; exact Or.inl (by simpa using h)
  | cons c t ih =>
    intro hstep acc h
    rw [List.foldl_cons] at h
    rcases ih (fun a c' hc' => hstep a c' (List.mem_cons_of_mem _ hc')) _ h with h1 | ⟨c', hc', hq⟩
    · rcases hstep acc c (List.mem_cons_self _ _) h1 with h2 | hq
      · exact Or.inl h2
      · exact Or.inr ⟨c, List.mem_cons_self _ _, hq⟩
    · exact Or.inr ⟨c', List.mem_cons_of_mem _ hc', hq⟩

theorem foldl_mem_intro {α : Type} {x : String} (step : List String → α → List String)
    (hmono : ∀ a c, ∀ y ∈ a, y ∈ step a c) {l : List α} {c : α} (hc : c ∈ l)
    (hx : ∀ a, x ∈ step a c) : ∀ acc, x ∈ l.foldl step acc := by
  obtain ⟨s, t, rfl⟩ := List.append_of_mem hc
  intro acc
  rw [List.foldl_append, List.foldl_cons]
  exact foldl_keep step (fun a c' h => hmono a c' x h) t _ (hx _)

/-! ### Counting unassigned variables -/

theorem filterSplit {α : Type} (l : List α) (p : α → Bool) :
    (l.filter p).length + (l.filter (fun a => !p a)).length = l.length := by
  induction l with
  | nil => rfl
  | cons a t ih => cases hpa : p a <;> simp [List.filter_cons, hpa] <;> omega

theorem keysA_length (A : Assignment) : (keysA A).length = A.length := by
  simp [keysA]

theorem keys_perm_assigned {csp : CSP} {A : Assignment}
    (h1 : (keysA A).Nodup) (h2 : ∀ x ∈ keysA A, x ∈ csp.vars) (h3 : csp.vars.Nodup) :
    (keysA A).Perm (csp.vars.filter (fun v => assigned A v)) := by
  rw [List.perm_ext_iff_of_nodup h1 (h3.filter _)]
  intro a
  rw [List.mem_filter]
  constructor
  · intro ha
    exact ⟨h2 a ha, assigned_iff_mem_keys.mpr ha⟩
  · rintro ⟨_, ha⟩
    exact assigned_iff_mem_keys.mp ha

theorem length_filter_assigned {csp : CSP} {A : Assignment}
    (h1 : (keysA A).Nodup) (h2 : ∀ x ∈ keysA A, x ∈ csp.vars) (h3 : csp.vars.Nodup) :
    A.length = (csp.vars.filter (fun v => assigned A v)).length := by
  rw [← keysA_length, (keys_perm_assigned h1 h2 h3).length_eq]

theorem all_assigned_of_complete {csp : CSP} {A : Assignment}
    (h1 : (keysA A).Nodup) (h2 : ∀ x ∈ keysA A, x ∈ csp.vars) (h3 : csp.vars.Nodup)
    (hlen : A.length = csp.vars.length) : ∀ v ∈ csp.vars, assigned A v = true := by
  have hf : (csp.vars.filter (fun v => assigned A v)).length = csp.vars.length := by
    rw [← length_filter_assigned h1 h2 h3, hlen]
  have hsubl : List.Sublist (csp.vars.filter (fun v => assigned A v)) csp.vars :=
    List.filter_sublist csp.vars
  have heq := hsubl.eq_of_length hf
  intro v hv
  have hvf : v ∈ csp.vars.filter (fun v => assigned A v) := by rw [heq]; exact hv
  exact (List.mem_filter.mp hvf).2

theorem uc_pos_of_incomplete {csp : CSP} {A : Assignment}
    (h1 : (keysA A).Nodup) (h2 : ∀ x ∈ keysA A, x ∈ csp.vars) (h3 : csp.vars.Nodup)
    (hlen : A.length ≠ csp.vars.length) : 0 < uc csp A := by
  by_contra h
  have huc : uc csp A = 0 := Nat.eq_zero_of_not_pos h
  have hs := filterSplit csp.vars (fun v => assigned A v)
  have huc' : (csp.vars.filter (fun v => !assigned A v)).length = 0 := huc
  rw [huc', Nat.add_zero] at hs
  exact hlen ((length_filter_assigned h1 h2 h3).trans hs)

theorem firstUnassigned_of_uc_pos {csp : CSP} {A : Assignment}
    (h : 0 < uc csp A) : ∃ var, firstUnassigned csp A = some var := by
  have hne : csp.vars.filter (fun v => !assigned A v) ≠ [] := by
    intro hnil
    rw [uc, hnil] at h
    simp at h
  obtain ⟨x, hx⟩ := List.exists_mem_of_ne_nil _ hne
  have hx' := List.mem_filter.mp hx
  have : (firstUnassigned csp A).isSome := by
    rw [firstUnassigned, List.find?_isSome]
    exact ⟨x, hx'.1, hx'.2⟩
  exact Option.isSome_iff_exists.mp this

theorem firstUnassigned_spec {csp : CSP} {A : Assignment} {var : String}
    (h : firstUnassigned csp A = some var) :
    var ∈ csp.vars ∧ assigned A var = false := by
  refine ⟨List.mem_of_find?_eq_some h, ?_⟩
  have := List.find?_some h
  simpa using this

theorem lookupA_append (A B : Assignment) (x : String) :
    lookupA (A ++ B) x =
      match lookupA A x with
      | some w => some w
      | none => lookupA B x := by
  induction A with
  | nil => simp [lookupA]
  | cons p r ih =>
    by_cases hp : p.1 = x
    · simp [lookupA, hp]
    · simp [lookupA, hp, ih]

theorem assigned_append_of_assigned {A : Assignment} {x k : String} {v : Val}
    (h : assigned A x = true) : assigned (A ++ [(k, v)]) x = true := by
  obtain ⟨w, hw⟩ := Option.isSome_iff_exists.mp h
  rw [assigned, lookupA_append, hw]
  rfl

theorem uc_append_lt {csp : CSP} {A : Assignment} {var : String} {v : Val}
    (hv : var ∈ csp.vars) (hna : assigned A var = false) :
    uc csp (A ++ [(var, v)]) < uc csp A := by
  have hsub : List.Sublist (csp.vars.filter (fun x => !assigned (A ++ [(var, v)]) x))
      (csp.vars.filter (fun x => !assigned A x)) := by
    apply List.monotone_filter_right
    intro a ha
    rw [Bool.not_eq_true'] at ha ⊢
    by_contra hc
    rw [Bool.not_eq_false] at hc
    rw [assigned_append_of_assigned hc] at ha
    simp at ha
  apply Nat.lt_of_le_of_ne hsub.length_le
  intro heq
  have heql := hsub.eq_of_length heq
  have hmem : var ∈ csp.vars.filter (fun x => !assigned A x) :=
    List.mem_filter.mpr ⟨hv, by simp [hna]⟩
  rw [← heql] at hmem
  have hfa := (List.mem_filter.mp hmem).2
  have hT : assigned (A ++ [(var, v)]) var = true := by
    simp [assigned, lookupA_append_self hna]
  rw [hT] at hfa
  simp at hfa

/-! ### Scope and consistency lemmas -/

theorem allAssigned_iff {A : Assignment} {scope : List String} :
    allAssigned A scope = true ↔ ∀ x ∈ scope, assigned A x = true := by
  simp [allAssigned, List.all_eq_true]

theorem valsOf_eq_map {A : Assignment} {σ : String → Val} {scope : List String}
    (h : ∀ x ∈ scope, lookupA A x = some (σ x)) : valsOf A scope = scope.map σ := by
  unfold valsOf
  exact List.map_congr_left fun x hx => by rw [h x hx]; rfl

theorem valsOf_fnOf (A : Assignment) (scope : List String) :
    valsOf A scope = scope.map (fnOf A) := rfl

theorem esConsistente_elim {csp : CSP} {var : String} {v : Val} {A : Assignment}
    (h : esConsistente csp var v A = true) {c : List String × (List Val → Bool)}
    (hc : c ∈ csp.restricciones) (h1 : var ∈ c.1)
    (h2 : allAssigned (setA A var v) c.1 = true) :
    c.2 (valsOf (setA A var v) c.1) = true := by
  unfold esConsistente at h
  have hcc := List.all_eq_true.mp h c hc
  rw [if_pos ⟨h1, h2⟩] at hcc
  exact hcc

theorem esConsistente_false_elim {csp : CSP} {var : String} {v : Val} {A : Assignment}
    (h : esConsistente csp var v A = false) :
    ∃ c ∈ csp.restricciones, var ∈ c.1 ∧ allAssigned (setA A var v) c.1 = true ∧
      c.2 (valsOf (setA A var v) c.1) = false := by
  unfold esConsistente at h
  rw [List.all_eq_false] at h
  obtain ⟨c, hc, hcf⟩ := h
  by_cases hcond : var ∈ c.1 ∧ allAssigned (setA A var v) c.1 = true
  · rw [if_pos hcond] at hcf
    exact ⟨c, hc, hcond.1, hcond.2, by simpa using hcf⟩
  · rw [if_neg hcond] at hcf
    simp at hcf

theorem scopeFold_keep {var : String} {A : Assignment} {x : String}
    (s : List String) (acc : List String) (h : x ∈ acc) :
    x ∈ s.foldl (fun a w => if w ≠ var ∧ assigned A w then addUniq a w else a) acc := by
  apply foldl_keep _ ?_ s acc h
  intro a c hx
  split
  · exact mem_addUniq.mpr (Or.inl hx)
  · exact hx

theorem scopeFold_intro {var : String} {A : Assignment} {x : String}
    (hxv : x ≠ var) (hxa : assigned A x = true) :
    ∀ (s : List String), x ∈ s → ∀ acc,
      x ∈ s.foldl (fun a w => if w ≠ var ∧ assigned A w then addUniq a w else a) acc := by
  intro s
  induction s with
  | nil => intro h; simp at h
  | cons w t ih =>
    intro hmem acc
    rw [List.foldl_cons]
    rcases List.mem_cons.mp hmem with rfl | ht
    · rw [if_pos ⟨hxv, hxa⟩]
      exact scopeFold_keep t _ (mem_addUniq.mpr (Or.inr rfl))
    · exact ih ht _

theorem conflictVars_assigned {csp : CSP} {var : String} {valor : Val} {A : Assignment}
    {x : String} (h : x ∈ conflictVars csp var valor A) :
    x ≠ var ∧ assigned A x = true := by
  unfold conflictVars at h
  have hmain := foldl_preserve_mem (fun _ => x ≠ var ∧ assigned A x = true) _
    csp.restricciones ?_ [] h
  · rcases hmain with h0 | ⟨c, _, hq⟩
    · simp at h0
    · exact hq
  · intro a c _ hx
    split at hx
    · have hin := foldl_preserve_mem (fun _ => x ≠ var ∧ assigned A x = true) _ c.1 ?_ a hx
      · rcases hin with h0 | ⟨w, _, hq⟩
        · exact Or.inl h0
        · exact Or.inr hq
      · intro a' w _ hx'
        split at hx'
        · rcases mem_addUniq.mp hx' with h0 | rfl
          · exact Or.inl h0
          · next hcond => exact Or.inr hcond
        · exact Or.inl hx'
    · exact Or.inl hx

theorem conflictVars_nodup (csp : CSP) (var : String) (valor : Val) (A : Assignment) :
    (conflictVars csp var valor A).Nodup := by
  unfold conflictVars
  generalize hstart : ([] : List String) = start
  have hnd : start.Nodup := by rw [← hstart]; exact List.nodup_nil
  clear hstart
  induction csp.restricciones generalizing start with
  | nil => simpa using hnd
  | cons c t ih =>
    rw [List.foldl_cons]
    apply ih
    split
    · clear ih
      induction c.1 generalizing start with
      | nil => simpa using hnd
      | cons w s ihs =>
        rw [List.foldl_cons]
        apply ihs
        split
        · exact addUniq_nodup hnd w
        · exact hnd
    · exact hnd

theorem mem_conflictVars_intro {csp : CSP} {var : String} {valor : Val} {A : Assignment}
    {x : String} {c : List String × (List Val → Bool)}
    (hc : c ∈ csp.restricciones) (h1 : var ∈ c.1)
    (h2 : allAssigned (setA A var valor) c.1 = true)
    (h3 : c.2 (valsOf (setA A var valor) c.1) = false)
    (hx : x ∈ c.1) (hxv : x ≠ var) (hxa : assigned A x = true) :
    x ∈ conflictVars csp var valor A := by
  unfold conflictVars
  apply foldl_mem_intro _ ?_ hc ?_ []
  · intro a c' y hy
    split
    · exact scopeFold_keep _ _ hy
    · exact hy
  · intro a
    rw [if_pos ⟨h1, h2, h3⟩]
    exact scopeFold_intro hxv hxa c.1 hx a

theorem addUniqFold_keep {x : String} (s : List String) (acc : List String)
    (h : x ∈ acc) : x ∈ s.foldl addUniq acc :=
  foldl_keep _ (fun a c hx => mem_addUniq.mpr (Or.inl hx)) s acc h

theorem addUniqFold_intro {x : String} :
    ∀ (s : List String), x ∈ s → ∀ acc, x ∈ s.foldl addUniq acc := by
  intro s
  induction s with
  | nil => intro h; simp at h
  | cons w t ih =>
    intro hmem acc
    rw [List.foldl_cons]
    rcases List.mem_cons.mp hmem with rfl | ht
    · exact addUniqFold_keep t _ (mem_addUniq.mpr (Or.inr rfl))
    · exact ih ht _

theorem mem_varsEnConflicto_intro {csp : CSP} {A : Assignment} {x : String}
    {c : List String × (List Val → Bool)} (hc : c ∈ csp.restricciones)
    (h2 : allAssigned A c.1 = true) (h3 : c.2 (valsOf A c.1) = false) (hx : x ∈ c.1) :
    x ∈ variablesEnConflicto csp A := by
  unfold variablesEnConflicto
  apply foldl_mem_intro _ ?_ hc ?_ []
  · intro a c' y hy
    split
    · exact addUniqFold_keep _ _ hy
    · exact hy
  · intro a
    rw [if_pos ⟨h2, h3⟩]
    exact addUniqFold_intro c.1 hx a

theorem mem_vecinosDe {csp : CSP} {v x : String} (h : x ∈ vecinosDe csp v) :
    ∃ c ∈ csp.restricciones, x ∈ c.1 := by
  unfold vecinosDe at h
  have hmain := foldl_preserve_mem (fun c : List String × (List Val → Bool) => x ∈ c.1) _
    csp.restricciones ?_ [] h
  · rcases hmain with h0 | ⟨c, hc, hq⟩
    · simp at h0
    · exact ⟨c, hc, hq⟩
  · intro a c _ hx
    split at hx
    · have hin := foldl_preserve_mem (fun _ : String => x ∈ c.1) _ c.1 ?_ a hx
      · rcases hin with h0 | ⟨w, hw, hq⟩
        · exact Or.inl h0
        · exact Or.inr hq
      · intro a' w hw hx'
        split at hx'
        · rcases mem_addUniq.mp hx' with h0 | rfl
          · exact Or.inl h0
          · exact Or.inr hw
        · exact Or.inl hx'
    · exact Or.inl hx

/-! ### tryValues lemmas -/

theorem tryValues_isSome_of {f : Val → Option Assignment} {pending : List Val} {v : Val}
    (hv : v ∈ pending) (h : (f v).isSome) : (tryValues f pending).isSome := by
  induction pending with
  | nil => simp at hv
  | cons w t ih =>
    rw [tryValues]
    split
    · simp
    · next hw =>
      rcases List.mem_cons.mp hv with rfl | ht
      · rw [hw] at h
        simp at h
      · exact ih ht

theorem tryValues_eq_some_elim {f : Val → Option Assignment} {pending : List Val}
    {B : Assignment} (h : tryValues f pending = some B) : ∃ v ∈ pending, f v = some B := by
  induction pending with
  | nil => simp [tryValues] at h
  | cons w t ih =>
    rw [tryValues] at h
    split at h
    · next r hw => exact ⟨w, List.mem_cons_self _ _, by rw [hw, h]⟩
    · next hw =>
      obtain ⟨v, hv, hfv⟩ := ih h
      exact ⟨v, List.mem_cons_of_mem _ hv, hfv⟩

/-! ### Backtracking: soundness and completeness -/

theorem InvA_nil (csp : CSP) : InvA csp [] := by
  refine ⟨by simp [keysA], by simp [keysA], by simp, ?_⟩
  intro c hc hne hall
  exfalso
  apply hne
  cases hcl : c.1 with
  | nil => rfl
  | cons x t =>
    have := allAssigned_iff.mp hall x (by rw [hcl]; exact List.mem_cons_self _ _)
    simp [assigned, lookupA] at this

theorem keysA_nodup_append {A : Assignment} {var : String} {v : Val}
    (h1 : (keysA A).Nodup) (hna : assigned A var = false) :
    (keysA (A ++ [(var, v)])).Nodup := by
  rw [keysA_append]
  have hnm : var ∉ keysA A := fun hm => by
    rw [assigned_iff_mem_keys.mpr hm] at hna
    simp at hna
  simp [List.nodup_append, h1, hnm]

theorem InvA_extend {csp : CSP} {A : Assignment} {var : String} {v : Val}
    (hinv : InvA csp A) (hv : var ∈ csp.vars) (hna : assigned A var = false)
    (hdom : v ∈ csp.dominios var) (hcons : esConsistente csp var v A = true) :
    InvA csp (A ++ [(var, v)]) := by
  obtain ⟨h1, h2, h3, h4⟩ := hinv
  refine ⟨keysA_nodup_append h1 hna, ?_, ?_, ?_⟩
  · rw [keysA_append]
    intro x hx
    rcases List.mem_append.mp hx with hx | hx
    · exact h2 x hx
    · simp at hx
      subst hx
      exact hv
  · intro p hp
    rcases List.mem_append.mp hp with hp | hp
    · exact h3 p hp
    · simp at hp
      rw [hp]
      exact hdom
  · intro c hc hne hall
    by_cases hvc : var ∈ c.1
    · have := esConsistente_elim hcons hc hvc (by rw [setA_eq_append hna]; exact hall)
      rwa [setA_eq_append hna] at this
    · have hall' : allAssigned A c.1 = true := by
        rw [allAssigned_iff] at hall ⊢
        intro x hx
        have hxv : x ≠ var := fun he : x = var => hvc (he ▸ hx)
        have hax := hall x hx
        rwa [assigned, lookupA_append_of_ne hxv] at hax
      have hvals : valsOf (A ++ [(var, v)]) c.1 = valsOf A c.1 := by
        unfold valsOf
        apply List.map_congr_left
        intro x hx
        rw [lookupA_append_of_ne (fun he : x = var => hvc (he ▸ hx))]
      rw [hvals]
      exact h4 c hc hne hall'

theorem sat_of_complete {csp : CSP} {A : Assignment} (hnd : csp.vars.Nodup)
    (hinv : InvA csp A) (hlen : A.length = csp.vars.length) : Sat csp (fnOf A) := by
  obtain ⟨h1, h2, h3, h4⟩ := hinv
  have hall := all_assigned_of_complete h1 h2 hnd hlen
  constructor
  · intro v hv
    obtain ⟨w, hw⟩ := Option.isSome_iff_exists.mp (hall v hv)
    have hmem := lookupA_mem hw
    have := h3 _ hmem
    simpa [fnOf, hw] using this
  · intro c hc hne hscope
    have hallc : allAssigned A c.1 = true :=
      allAssigned_iff.mpr fun x hx => hall x (hscope x hx)
    have := h4 c hc hne hallc
    rwa [valsOf_fnOf] at this

theorem bt_sound {csp : CSP} (hnd : csp.vars.Nodup) :
    ∀ n (A B : Assignment), InvA csp A → btGo csp n A = some B → Sat csp (fnOf B) := by
  intro n
  induction n with
  | zero =>
    intro A B _ h
    simp [btGo] at h
  | succ n ih =>
    intro A B hinv h
    rw [btGo] at h
    by_cases hlen : A.length = csp.vars.length
    · rw [if_pos hlen] at h
      obtain rfl : A = B := by injection h
      exact sat_of_complete hnd hinv hlen
    · rw [if_neg hlen] at h
      cases hfu : firstUnassigned csp A with
      | none => rw [hfu] at h; simp at h
      | some var =>
        rw [hfu] at h
        obtain ⟨hv, hna⟩ := firstUnassigned_spec hfu
        obtain ⟨v, hvp, hfv⟩ := tryValues_eq_some_elim h
        by_cases hcons : esConsistente csp var v A = true
        · rw [if_pos hcons] at hfv
          have hinv' := InvA_extend hinv hv hna hvp hcons
          rw [setA_eq_append hna] at hfv
          exact ih _ _ hinv' hfv
        · rw [if_neg hcons] at hfv
          simp at hfv

theorem esConsistente_of_sat {csp : CSP} {σ : String → Val} {A : Assignment} {var : String}
    (hσ : Sat csp σ) (hag : ∀ p ∈ A, σ p.1 = p.2) (hk : ∀ x ∈ keysA A, x ∈ csp.vars)
    (hv : var ∈ csp.vars) :
    esConsistente csp var (σ var) A = true := by
  unfold esConsistente
  rw [List.all_eq_true]
  intro c hc
  split
  case isFalse => rfl
  case isTrue hcond =>
    have hsc : ∀ x ∈ c.1, x ∈ csp.vars := by
      intro x hx
      have hax : assigned (setA A var (σ var)) x = true := allAssigned_iff.mp hcond.2 x hx
      by_cases hxv : x = var
      · subst hxv
        exact hv
      · rw [assigned, lookupA_setA_ne A _ hxv] at hax
        exact hk x (assigned_iff_mem_keys.mp hax)
    have hne : c.1 ≠ [] := fun he => by
      have := hcond.1
      rw [he] at this
      simp at this
    have hvals : valsOf (setA A var (σ var)) c.1 = c.1.map σ := by
      apply valsOf_eq_map
      intro x hx
      by_cases hxv : x = var
      · subst hxv
        exact lookupA_setA_self A x (σ x)
      · rw [lookupA_setA_ne A _ hxv]
        have hax : assigned (setA A var (σ var)) x = true := allAssigned_iff.mp hcond.2 x hx
        rw [assigned, lookupA_setA_ne A _ hxv] at hax
        obtain ⟨w, hw⟩ := Option.isSome_iff_exists.mp hax
        rw [hw]
        exact congrArg some ((hag _ (lookupA_mem hw)).symm)
    rw [hvals]
    exact hσ.2 c hc hne hsc

theorem bt_complete {csp : CSP} {σ : String → Val} (hnd : csp.vars.Nodup) (hσ : Sat csp σ) :
    ∀ n (A : Assignment), (∀ p ∈ A, σ p.1 = p.2) → (keysA A).Nodup →
      (∀ x ∈ keysA A, x ∈ csp.vars) → uc csp A ≤ n → (btGo csp (n + 1) A).isSome := by
  intro n
  induction n with
  | zero =>
    intro A hag h1 h2 huc
    rw [btGo]
    by_cases hlen : A.length = csp.vars.length
    · simp [hlen]
    · exact absurd (uc_pos_of_incomplete h1 h2 hnd hlen) (by omega)
  | succ n ih =>
    intro A hag h1 h2 huc
    rw [btGo]
    by_cases hlen : A.length = csp.vars.length
    · simp [hlen]
    · rw [if_neg hlen]
      have hpos := uc_pos_of_incomplete h1 h2 hnd hlen
      obtain ⟨var, hfu⟩ := firstUnassigned_of_uc_pos hpos
      rw [hfu]
      obtain ⟨hv, hna⟩ := firstUnassigned_spec hfu
      apply tryValues_isSome_of (hσ.1 var hv)
      have hcons := esConsistente_of_sat hσ hag h2 hv
      rw [if_pos hcons, setA_eq_append hna]
      apply ih
      · intro p hp
        rcases List.mem_append.mp hp with hp | hp
        · exact hag p hp
        · simp at hp
          rw [hp]
      · exact keysA_nodup_append h1 hna
      · rw [keysA_append]
        intro x hx
        rcases List.mem_append.mp hx with hx | hx
        · exact h2 x hx
        · simp at hx
          subst hx
          exact hv
      · have hlt : uc csp (A ++ [(var, σ var)]) < uc csp A := uc_append_lt hv hna
        omega

/-! ### Backjumping: soundness, conflict-set invariants and completeness -/

theorem bjLoop_solved_elim {csp : CSP} {child : Assignment → BjResult} {A : Assignment}
    {var : String} :
    ∀ (pending : List Val) (cs : List String) (B : Assignment),
      bjLoop csp child A var pending cs = .solved B →
      ∃ v ∈ pending, esConsistente csp var v A = true ∧ child (setA A var v) = .solved B := by
  intro pending
  induction pending with
  | nil =>
    intro cs B h
    rw [bjLoop] at h
    split at h <;> exact BjResult.noConfusion h
  | cons v rest ih =>
    intro cs B h
    rw [bjLoop] at h
    by_cases hcons : esConsistente csp var v A = true
    · rw [if_pos hcons] at h
      cases hch : child (setA A var v) with
      | solved B' =>
        simp only [hch] at h
        obtain rfl : B' = B := by injection h
        exact ⟨v, List.mem_cons_self _ _, hcons, hch⟩
      | fallo =>
        simp only [hch] at h
        obtain ⟨v', hv', hc', hch'⟩ := ih _ _ h
        exact ⟨v', List.mem_cons_of_mem _ hv', hc', hch'⟩
      | conflict S =>
        simp only [hch] at h
        by_cases hvS : var ∈ S
        · rw [if_pos hvS] at h
          obtain ⟨v', hv', hc', hch'⟩ := ih _ _ h
          exact ⟨v', List.mem_cons_of_mem _ hv', hc', hch'⟩
        · rw [if_neg hvS] at h
          exact BjResult.noConfusion h
    · rw [if_neg hcons] at h
      obtain ⟨v', hv', hc', hch'⟩ := ih _ _ h
      exact ⟨v', List.mem_cons_of_mem _ hv', hc', hch'⟩

theorem bjLoop_main {csp : CSP} {child : Assignment → BjResult} {A : Assignment}
    {var : String}
    (hv : var ∈ csp.vars) (hna : assigned A var = false)
    (hk : ∀ x ∈ keysA A, x ∈ csp.vars)
    (hcC : ∀ v S, child (setA A var v) = .conflict S →
      S ≠ [] ∧ S.Nodup ∧ (∀ x ∈ S, assigned (setA A var v) x = true) ∧
        ∀ σ, Sat csp σ → ¬ Agrees σ (setA A var v) S)
    (hcF : ∀ v, child (setA A var v) = .fallo → ¬ Satisfiable csp) :
    ∀ (pending : List Val) (cs : List String),
      (∀ x ∈ cs, assigned A x = true) → cs.Nodup →
      (∀ σ, Sat csp σ → Agrees σ A cs → σ var ∈ csp.dominios var → σ var ∈ pending) →
      (∀ S, bjLoop csp child A var pending cs = .conflict S →
        S ≠ [] ∧ S.Nodup ∧ (∀ x ∈ S, assigned A x = true) ∧
          ∀ σ, Sat csp σ → ¬ Agrees σ A S) ∧
      (bjLoop csp child A var pending cs = .fallo → ¬ Satisfiable csp) := by
  intro pending
  induction pending with
  | nil =>
    intro cs h1 h2 h3
    constructor
    · intro S hS
      rw [bjLoop] at hS
      split at hS
      · exact BjResult.noConfusion hS
      · next hcs =>
        obtain rfl : cs = S := by injection hS
        refine ⟨by simpa using hcs, h2, h1, ?_⟩
        intro σ hσ hag
        have := h3 σ hσ hag (hσ.1 var hv)
        simp at this
    · intro hS
      rw [bjLoop] at hS
      split at hS
      · next hcs =>
        rintro ⟨σ, hσ⟩
        have hcse : cs = [] := List.isEmpty_iff.mp hcs
        have := h3 σ hσ (by rw [hcse]; intro x hx; simp at hx) (hσ.1 var hv)
        simp at this
      · exact BjResult.noConfusion hS
  | cons v rest ih =>
    intro cs h1 h2 h3
    rw [bjLoop]
    by_cases hcons : esConsistente csp var v A = true
    · rw [if_pos hcons]
      cases hch : child (setA A var v) with
      | solved B =>
        constructor
        · intro S hS
          exact BjResult.noConfusion hS
        · intro hS
          exact BjResult.noConfusion hS
      | fallo =>
        dsimp only
        apply ih cs h1 h2
        intro σ hσ _ _
        exact absurd ⟨σ, hσ⟩ (hcF v hch)
      | conflict S =>
        dsimp only
        obtain ⟨hS1, hS2, hS3, hS4⟩ := hcC v S hch
        by_cases hvS : var ∈ S
        · rw [if_pos hvS]
          apply ih
          · intro x hx
            rcases mem_unionL.mp hx with hx | hx
            · exact h1 x hx
            · obtain ⟨hxv, hxS⟩ := (hS2.mem_erase_iff).mp hx
              have := hS3 x hxS
              rwa [assigned, lookupA_setA_ne A _ hxv] at this
          · exact unionL_nodup h2 _
          · intro σ hσ hag hdom
            have hin := h3 σ hσ (fun x hx => hag x (mem_unionL.mpr (Or.inl hx))) hdom
            rcases List.mem_cons.mp hin with heq | ht
            · exfalso
              apply hS4 σ hσ
              intro x hxS
              by_cases hxv : x = var
              · subst hxv
                rw [lookupA_setA_self, heq]
              · have hxe : x ∈ S.erase var := (hS2.mem_erase_iff).mpr ⟨hxv, hxS⟩
                rw [lookupA_setA_ne A _ hxv]
                exact hag x (mem_unionL.mpr (Or.inr hxe))
            · exact ht
        · rw [if_neg hvS]
          constructor
          · intro S' hS'
            obtain rfl : S = S' := by injection hS'
            refine ⟨hS1, hS2, ?_, ?_⟩
            · intro x hxS
              have hxv : x ≠ var := fun he : x = var => hvS (he ▸ hxS)
              have := hS3 x hxS
              rwa [assigned, lookupA_setA_ne A _ hxv] at this
            · intro σ hσ hag
              apply hS4 σ hσ
              intro x hxS
              have hxv : x ≠ var := fun he : x = var => hvS (he ▸ hxS)
              rw [lookupA_setA_ne A _ hxv]
              exact hag x hxS
          · intro hS'
            exact BjResult.noConfusion hS'
    · rw [if_neg hcons]
      apply ih
      · intro x hx
        rcases mem_unionL.mp hx with hx | hx
        · exact h1 x hx
        · exact (conflictVars_assigned hx).2
      · exact unionL_nodup h2 _
      · intro σ hσ hag hdom
        have hin := h3 σ hσ (fun x hx => hag x (mem_unionL.mpr (Or.inl hx))) hdom
        rcases List.mem_cons.mp hin with heq | ht
        · exfalso
          have hcf : esConsistente csp var v A = false := Bool.eq_false_iff.mpr hcons
          obtain ⟨c, hc, hvc, hall, hpred⟩ := esConsistente_false_elim hcf
          have hsc : ∀ x ∈ c.1, x ∈ csp.vars := by
            intro x hx
            have hax := allAssigned_iff.mp hall x hx
            by_cases hxv : x = var
            · subst hxv
              exact hv
            · rw [assigned, lookupA_setA_ne A _ hxv] at hax
              exact hk x (assigned_iff_mem_keys.mp hax)
          have hne : c.1 ≠ [] := fun he => by rw [he] at hvc; simp at hvc
          have hvals : valsOf (setA A var v) c.1 = c.1.map σ := by
            apply valsOf_eq_map
            intro x hx
            by_cases hxv : x = var
            · subst hxv
              rw [lookupA_setA_self, heq]
            · rw [lookupA_setA_ne A _ hxv]
              have hax := allAssigned_iff.mp hall x hx
              rw [assigned, lookupA_setA_ne A _ hxv] at hax
              have hxc : x ∈ conflictVars csp var v A :=
                mem_conflictVars_intro hc hvc hall hpred hx hxv hax
              exact hag x (mem_unionL.mpr (Or.inr hxc))
          have hsat := hσ.2 c hc hne hsc
          rw [← hvals, hpred] at hsat
          simp at hsat
        · exact ht

theorem bjGo_main {csp : CSP} (hnd : csp.vars.Nodup) :
    ∀ n (A : Assignment), (keysA A).Nodup → (∀ x ∈ keysA A, x ∈ csp.vars) →
      uc csp A < n →
      (∀ S, bjGo csp n A = .conflict S →
        S ≠ [] ∧ S.Nodup ∧ (∀ x ∈ S, assigned A x = true) ∧
          ∀ σ, Sat csp σ → ¬ Agrees σ A S) ∧
      (bjGo csp n A = .fallo → ¬ Satisfiable csp) := by
  intro n
  induction n with
  | zero =>
    intro A _ _ h
    exact absurd h (Nat.not_lt_zero _)
  | succ n ih =>
    intro A h1 h2 hfuel
    rw [bjGo]
    by_cases hlen : A.length = csp.vars.length
    · rw [if_pos hlen]
      constructor
      · intro S hS
        exact BjResult.noConfusion hS
      · intro hS
        exact BjResult.noConfusion hS
    · rw [if_neg hlen]
      have hpos := uc_pos_of_incomplete h1 h2 hnd hlen
      obtain ⟨var, hfu⟩ := firstUnassigned_of_uc_pos hpos
      rw [hfu]
      obtain ⟨hv, hna⟩ := firstUnassigned_spec hfu
      have h2' : ∀ (v : Val), ∀ x ∈ keysA (A ++ [(var, v)]), x ∈ csp.vars := by
        intro v x hx
        rw [keysA_append] at hx
        rcases List.mem_append.mp hx with hx | hx
        · exact h2 x hx
        · simp at hx
          subst hx
          exact hv
      have hfuel' : ∀ (v : Val), uc csp (A ++ [(var, v)]) < n := by
        intro v
        have hlt : uc csp (A ++ [(var, v)]) < uc csp A := uc_append_lt hv hna
        omega
      apply bjLoop_main hv hna h2 ?_ ?_ (csp.dominios var) [] (by simp) (by simp) ?_
      · intro v S hch
        rw [setA_eq_append hna] at hch ⊢
        exact (ih (A ++ [(var, v)]) (keysA_nodup_append h1 hna) (h2' v) (hfuel' v)).1 S hch
      · intro v hch
        rw [setA_eq_append hna] at hch
        exact (ih (A ++ [(var, v)]) (keysA_nodup_append h1 hna) (h2' v) (hfuel' v)).2 hch
      · intro σ hσ _ hdom
        exact hdom

theorem bjGo_sound {csp : CSP} (hnd : csp.vars.Nodup) :
    ∀ n (A B : Assignment), InvA csp A → bjGo csp n A = .solved B → Sat csp (fnOf B) := by
  intro n
  induction n with
  | zero =>
    intro A B _ h
    rw [bjGo] at h
    exact BjResult.noConfusion h
  | succ n ih =>
    intro A B hinv h
    rw [bjGo] at h
    by_cases hlen : A.length = csp.vars.length
    · rw [if_pos hlen] at h
      obtain rfl : A = B := by injection h
      exact sat_of_complete hnd hinv hlen
    · rw [if_neg hlen] at h
      cases hfu : firstUnassigned csp A with
      | none =>
        rw [hfu] at h
        exact BjResult.noConfusion h
      | some var =>
        rw [hfu] at h
        obtain ⟨hv, hna⟩ := firstUnassigned_spec hfu
        obtain ⟨v, hvp, hcons, hch⟩ := bjLoop_solved_elim _ _ _ h
        have hinv' := InvA_extend hinv hv hna hvp hcons
        rw [setA_eq_append hna] at hch
        exact ih _ _ hinv' hch

theorem bj_iff_sat {csp : CSP} (hnd : csp.vars.Nodup) :
    (∃ B, resolverBackjumping csp = some (Sum.inl B)) ↔ Satisfiable csp := by
  unfold resolverBackjumping
  constructor
  · rintro ⟨B, hB⟩
    cases hg : bjGo csp (csp.vars.length + 1) [] with
    | solved A => exact ⟨fnOf A, bjGo_sound hnd _ [] A (InvA_nil csp) hg⟩
    | conflict S =>
      rw [hg] at hB
      simp at hB
    | fallo =>
      rw [hg] at hB
      simp at hB
  · intro hsat
    have hmain := bjGo_main hnd (csp.vars.length + 1) [] (by simp [keysA]) (by simp [keysA])
      (Nat.lt_succ_of_le (List.length_filter_le _ _))
    cases hg : bjGo csp (csp.vars.length + 1) [] with
    | solved A =>
      refine ⟨A, ?_⟩
      dsimp only
    | conflict S =>
      obtain ⟨hS1, _, hS3, _⟩ := hmain.1 S hg
      obtain ⟨x, hx⟩ := List.exists_mem_of_ne_nil S hS1
      have := hS3 x hx
      simp [assigned, lookupA] at this
    | fallo => exact absurd hsat (hmain.2 hg)

theorem bt_iff_sat {csp : CSP} (hnd : csp.vars.Nodup) :
    (∃ B, resolverBacktracking csp = some B) ↔ Satisfiable csp := by
  constructor
  · rintro ⟨B, hB⟩
    exact ⟨_, bt_sound hnd _ [] B (InvA_nil csp) hB⟩
  · rintro ⟨σ, hσ⟩
    have hs := bt_complete hnd hσ csp.vars.length [] (by simp) (by simp [keysA])
      (by simp [keysA]) (List.length_filter_le _ _)
    exact Option.isSome_iff_exists.mp hs

/-! ### AC-3: the revision step and worklist soundness -/

theorem foldl_erase_of_not_mem {x : Val} :
    ∀ (L : List Val), (∀ v ∈ L, v ≠ x) → ∀ (l : List Val),
      L.foldl (fun d v => d.erase v) (x :: l) = x :: L.foldl (fun d v => d.erase v) l := by
  intro L
  induction L with
  | nil => intro _ l; rfl
  | cons v t ih =>
    intro h l
    rw [List.foldl_cons, List.foldl_cons, List.erase_cons,
      if_neg (by simp only [beq_iff_eq]; exact fun he => h v (List.mem_cons_self _ _) he.symm)]
    exact ih (fun w hw => h w (List.mem_cons_of_mem _ hw)) _

theorem erase_fold_eq_filter (l : List Val) (p : Val → Bool) :
    (l.filter p).foldl (fun d v => d.erase v) l = l.filter (fun a => !p a) := by
  induction l with
  | nil => rfl
  | cons a t ih =>
    by_cases hpa : p a = true
    · rw [List.filter_cons_of_pos hpa, List.foldl_cons, List.erase_cons_head, ih,
        List.filter_cons_of_neg (by simp [hpa])]
    · rw [List.filter_cons_of_neg (by simp [hpa]),
        foldl_erase_of_not_mem _
          (fun v hv (he : v = a) => hpa (he ▸ (List.mem_filter.mp hv).2)) t,
        ih, List.filter_cons_of_pos (by simp [hpa])]

theorem updD_self (d : String → List Val) (x : String) (l : List Val) :
    updD d x l x = l := by
  simp [updD]

theorem updD_other (d : String → List Val) (x : String) (l : List Val) {y : String}
    (h : y ≠ x) : updD d x l y = d y := by
  simp [updD, h]

theorem revisarArco_spec (csp : CSP) (xi xj : String) (doms : String → List Val) :
    (revisarArco csp xi xj doms).2.2 = updD doms xi
      ((doms xi).filter (fun a => (doms xj).any (fun b => esConsistenteBinaria csp xi a xj b))) := by
  unfold revisarArco
  dsimp only
  rw [erase_fold_eq_filter]
  simp only [Bool.not_not]

theorem esConsBin_of_sat {csp : CSP} {σ : String → Val} {xi xj : String}
    (hσ : Sat csp σ) (hxi : xi ∈ csp.vars) (hxj : xj ∈ csp.vars) :
    esConsistenteBinaria csp xi (σ xi) xj (σ xj) = true := by
  unfold esConsistenteBinaria
  cases hf : csp.restricciones.find? (fun c => decide (c.1 = [xi, xj])) with
  | some c =>
    have hc := List.mem_of_find?_eq_some hf
    have hkey : c.1 = [xi, xj] := by simpa using List.find?_some hf
    have := hσ.2 c hc (by rw [hkey]; simp)
      (by
        rw [hkey]
        intro x hx
        rcases List.mem_cons.mp hx with rfl | hx
        · exact hxi
        · simp at hx
          subst hx
          exact hxj)
    rw [hkey] at this
    simpa using this
  | none =>
    cases hf2 : csp.restricciones.find? (fun c => decide (c.1 = [xj, xi])) with
    | some c =>
      have hc := List.mem_of_find?_eq_some hf2
      have hkey : c.1 = [xj, xi] := by simpa using List.find?_some hf2
      have := hσ.2 c hc (by rw [hkey]; simp)
        (by
          rw [hkey]
          intro x hx
          rcases List.mem_cons.mp hx with rfl | hx
          · exact hxj
          · simp at hx
            subst hx
            exact hxi)
      rw [hkey] at this
      simpa using this
    | none => rfl

theorem revisarArco_keeps {csp : CSP} {σ : String → Val} {xi xj : String}
    {doms : String → List Val}
    (hσ : Sat csp σ) (hxi : xi ∈ csp.vars) (hxj : xj ∈ csp.vars)
    (hj : σ xj ∈ doms xj) {v : String} (hvv : v ∈ csp.vars)
    (hin : σ v ∈ doms v) : σ v ∈ (revisarArco csp xi xj doms).2.2 v := by
  rw [revisarArco_spec]
  by_cases hvx : v = xi
  · subst hvx
    rw [updD_self, List.mem_filter]
    refine ⟨hin, ?_⟩
    rw [List.any_eq_true]
    exact ⟨σ xj, hj, esConsBin_of_sat hσ hvv hxj⟩
  · rw [updD_other _ _ _ hvx]
    exact hin

theorem ac3Loop_main {csp : CSP} {σ : String → Val}
    (hσ : Sat csp σ) (hscope : ∀ c ∈ csp.restricciones, ∀ x ∈ c.1, x ∈ csp.vars) :
    ∀ (fuel : Nat) (queue : List (String × String)) (doms : String → List Val),
      (∀ a ∈ queue, a.1 ∈ csp.vars ∧ a.2 ∈ csp.vars) →
      (∀ v ∈ csp.vars, σ v ∈ doms v) →
      (∀ v, List.Sublist (doms v) (csp.dominios v)) →
      (ac3Loop csp fuel queue doms).1 = true ∧
        (∀ v ∈ csp.vars, σ v ∈ (ac3Loop csp fuel queue doms).2 v) ∧
        (∀ v, List.Sublist ((ac3Loop csp fuel queue doms).2 v) (csp.dominios v)) := by
  intro fuel
  induction fuel with
  | zero =>
    intro queue doms _ hin hsub
    rw [ac3Loop]
    exact ⟨rfl, hin, hsub⟩
  | succ n ih =>
    intro queue doms hq hin hsub
    cases queue with
    | nil =>
      rw [ac3Loop]
      exact ⟨rfl, hin, hsub⟩
    | cons arc rest =>
      obtain ⟨xi, xj⟩ := arc
      rw [ac3Loop]
      have hxi : xi ∈ csp.vars := (hq _ (List.mem_cons_self _ _)).1
      have hxj : xj ∈ csp.vars := (hq _ (List.mem_cons_self _ _)).2
      have hin' : ∀ v ∈ csp.vars, σ v ∈ (revisarArco csp xi xj doms).2.2 v := by
        intro v hvv
        exact revisarArco_keeps hσ hxi hxj (hin xj hxj) hvv (hin v hvv)
      have hsub' : ∀ v, List.Sublist ((revisarArco csp xi xj doms).2.2 v) (csp.dominios v) := by
        intro v
        rw [revisarArco_spec]
        by_cases hvx : v = xi
        · subst hvx
          rw [updD_self]
          exact (List.filter_sublist _).trans (hsub v)
        · rw [updD_other _ _ _ hvx]
          exact hsub v
      have hqrest : ∀ a ∈ rest, a.1 ∈ csp.vars ∧ a.2 ∈ csp.vars :=
        fun a ha => hq a (List.mem_cons_of_mem _ ha)
      by_cases hrev : (revisarArco csp xi xj doms).1 = true
      · rw [if_pos hrev]
        have hne : ¬(((revisarArco csp xi xj doms).2.2 xi).isEmpty = true) := by
          intro hE
          have hmem := hin' xi hxi
          rw [List.isEmpty_iff.mp hE] at hmem
          simp at hmem
        rw [if_neg hne]
        apply ih
        · intro a ha
          rcases List.mem_append.mp ha with ha | ha
          · exact hqrest a ha
          · obtain ⟨xk, hxk, rfl⟩ := List.mem_map.mp ha
            have hxkm := (List.mem_filter.mp hxk).1
            obtain ⟨c, hc, hxc⟩ := mem_vecinosDe hxkm
            exact ⟨hscope c hc _ hxc, hxi⟩
        · exact hin'
        · exact hsub'
      · rw [if_neg hrev]
        exact ih rest _ hqrest hin' hsub'

theorem mem_arcosDe {csp : CSP} {a : String × String} (h : a ∈ arcosDe csp) :
    ∃ c ∈ csp.restricciones, c.1 = [a.1, a.2] ∨ c.1 = [a.2, a.1] := by
  unfold arcosDe at h
  have aux : ∀ (l : List (List String × (List Val → Bool))) (acc : List (String × String)),
      a ∈ l.foldl (fun acc c =>
        match c.1 with
        | [x, y] => acc ++ [(x, y), (y, x)]
        | _ => acc) acc →
      a ∈ acc ∨ ∃ c ∈ l, c.1 = [a.1, a.2] ∨ c.1 = [a.2, a.1] := by
    intro l
    induction l with
    | nil =>
      intro acc h'
      exact Or.inl (by simpa using h')
    | cons c t ih =>
      intro acc h'
      rw [List.foldl_cons] at h'
      rcases ih _ h' with h'' | ⟨c', hc', hqq⟩
      · rcases hs : c.1 with _ | ⟨x, tl⟩
        · rw [hs] at h''
          exact Or.inl h''
        · rcases hs2 : tl with _ | ⟨y, tl2⟩
          · rw [hs, hs2] at h''
            exact Or.inl h''
          · rcases hs3 : tl2 with _ | ⟨z, tl3⟩
            · rw [hs, hs2, hs3] at h''
              rcases List.mem_append.mp h'' with h3 | h3
              · exact Or.inl h3
              · refine Or.inr ⟨c, List.mem_cons_self _ _, ?_⟩
                rw [hs, hs2, hs3]
                rcases List.mem_cons.mp h3 with rfl | h4
                · exact Or.inl rfl
                · simp at h4
                  subst h4
                  exact Or.inr rfl
            · rw [hs, hs2, hs3] at h''
              exact Or.inl h''
      · exact Or.inr ⟨c', List.mem_cons_of_mem _ hc', hqq⟩
  rcases aux _ [] h with h0 | hqq
  · simp at h0
  · exact hqq

theorem ac3Full_main {csp : CSP} {σ : String → Val} (hσ : Sat csp σ)
    (hscope : ∀ c ∈ csp.restricciones, ∀ x ∈ c.1, x ∈ csp.vars) :
    (ac3Full csp).1 = true ∧ (∀ v ∈ csp.vars, σ v ∈ (ac3Full csp).2 v) ∧
      ∀ v, List.Sublist ((ac3Full csp).2 v) (csp.dominios v) := by
  unfold ac3Full ac3Run ac3From
  apply ac3Loop_main hσ hscope
  · intro a ha
    obtain ⟨c, hc, hk⟩ := mem_arcosDe ha
    rcases hk with hk | hk
    · exact ⟨hscope c hc a.1 (by rw [hk]; simp), hscope c hc a.2 (by rw [hk]; simp)⟩
    · exact ⟨hscope c hc a.1 (by rw [hk]; simp), hscope c hc a.2 (by rw [hk]; simp)⟩
  · exact hσ.1
  · intro v
    exact List.Sublist.refl _

/-! ### Min-conflicts: totality and the zero-conflict return condition -/

theorem assigned_setA_self (A : Assignment) (k : String) (v : Val) :
    assigned (setA A k v) k = true := by
  rw [assigned_setA]
  simp

theorem assigned_setA_of {A : Assignment} {x : String} (k : String) (v : Val)
    (h : assigned A x = true) : assigned (setA A k v) x = true := by
  rw [assigned_setA, h]
  rfl

theorem enumFrom_map_snd {α : Type} : ∀ (n : Nat) (l : List α),
    (List.enumFrom n l).map Prod.snd = l := by
  intro n l
  induction l generalizing n with
  | nil => rfl
  | cons a t ih => simp [List.enumFrom, ih]

theorem initialAssign_total (csp : CSP) (rng : Nat → Nat) :
    ∀ v ∈ csp.vars, assigned (initialAssign csp rng) v = true := by
  have aux : ∀ (l : List (Nat × String)) (A : Assignment) (v : String),
      (v ∈ l.map Prod.snd ∨ assigned A v = true) →
      assigned (l.foldl (fun A p => setA A p.2 (chooseV rng p.1 (csp.dominios p.2))) A) v
        = true := by
    intro l
    induction l with
    | nil =>
      intro A v h
      rcases h with h | h
      · simp at h
      · simpa using h
    | cons p t ih =>
      intro A v h
      rw [List.foldl_cons]
      apply ih
      rcases h with h | h
      · rw [List.map_cons] at h
        rcases List.mem_cons.mp h with rfl | h
        · exact Or.inr (assigned_setA_self _ _ _)
        · exact Or.inl h
      · exact Or.inr (assigned_setA_of _ _ h)
  intro v hv
  apply aux
  left
  rw [List.enum, enumFrom_map_snd]
  exact hv

theorem conf_empty_cumple {csp : CSP} {A : Assignment}
    (h1 : ∀ c ∈ csp.restricciones, c.1 ≠ [])
    (h2 : ∀ c ∈ csp.restricciones, ∀ x ∈ c.1, x ∈ csp.vars)
    (htot : ∀ v ∈ csp.vars, assigned A v = true)
    (hconf : variablesEnConflicto csp A = []) : cumpleTodas csp A = true := by
  rw [cumpleTodas, List.all_eq_true]
  intro c hc
  have hall : allAssigned A c.1 = true :=
    allAssigned_iff.mpr fun x hx => htot x (h2 c hc x hx)
  by_contra hfp
  have hfp' : c.2 (valsOf A c.1) = false := Bool.eq_false_iff.mpr hfp
  obtain ⟨x, hx⟩ := List.exists_mem_of_ne_nil _ (h1 c hc)
  have := mem_varsEnConflicto_intro hc hall hfp' hx
  rw [hconf] at this
  simp at this

theorem minConflictsGo_some {csp : CSP}
    (h1 : ∀ c ∈ csp.restricciones, c.1 ≠ [])
    (h2 : ∀ c ∈ csp.restricciones, ∀ x ∈ c.1, x ∈ csp.vars) :
    ∀ (fuel : Nat) (A : Assignment) (rng : Nat → Nat) (k : Nat) (B : Assignment),
      (∀ v ∈ csp.vars, assigned A v = true) →
      minConflictsGo csp fuel A rng k = some B →
      (∀ v ∈ csp.vars, assigned B v = true) ∧ cumpleTodas csp B = true := by
  intro fuel
  induction fuel with
  | zero =>
    intro A rng k B _ h
    rw [minConflictsGo] at h
    exact Option.noConfusion h
  | succ n ih =>
    intro A rng k B htot h
    rw [minConflictsGo] at h
    by_cases hc : (variablesEnConflicto csp A).isEmpty = true
    · rw [if_pos hc] at h
      obtain rfl : A = B := by injection h
      exact ⟨htot, conf_empty_cumple h1 h2 htot (List.isEmpty_iff.mp hc)⟩
    · rw [if_neg hc] at h
      apply ih _ rng _ B _ h
      intro v hv
      rcases htot v hv with hva
      exact assigned_setA_of _ _ hva

/-! ### A concrete unsatisfiable instance -/

theorem triangle_unsat : ¬ Satisfiable triangleCsp := by
  rintro ⟨σ, hdom, hcon⟩
  have hA : σ "A" ∈ ([0, 1] : List Val) := hdom "A" (by simp [triangleCsp])
  have hB : σ "B" ∈ ([0, 1] : List Val) := hdom "B" (by simp [triangleCsp])
  have hC : σ "C" ∈ ([0, 1] : List Val) := hdom "C" (by simp [triangleCsp])
  have h1 := hcon (["A", "B"], neq2) (by simp [triangleCsp]) (by simp)
    (by intro x hx; simp at hx; rcases hx with rfl | rfl <;> simp [triangleCsp])
  have h2 := hcon (["A", "C"], neq2) (by simp [triangleCsp]) (by simp)
    (by intro x hx; simp at hx; rcases hx with rfl | rfl <;> simp [triangleCsp])
  have h3 := hcon (["B", "C"], neq2) (by simp [triangleCsp]) (by simp)
    (by intro x hx; simp at hx; rcases hx with rfl | rfl <;> simp [triangleCsp])
  simp [neq2] at h1 h2 h3
  simp at hA hB hC
  rcases hA with hA | hA <;> rcases hB with hB | hB <;> rcases hC with hC | hC <;>
    simp [hA, hB, hC] at h1 h2 h3

/-! ### The claims -/

/-- C1: the claim that every strategy's solve entry point is sound fails on
the code: on the 2-color triangle the MAC solver returns the assignment
`{A: 0, B: 0, C: 0}`, which violates all three constraints.  (The MAC
`_backtrack` never calls `es_consistente` and its `ac3` call restarts from
the canonical domains, so nothing ever rules the assignment out.) -/
theorem C1_mac_unsound :
    macResolver triangleCsp = some [("A", 0), ("B", 0), ("C", 0)] ∧
      cumpleTodas triangleCsp [("A", 0), ("B", 0), ("C", 0)] = false := by
  decide

/-- C2: the claim that no solver mutates the canonical domain map fails on
the code: `resolver_arbol_csp` executes `csp.dominios[var] = valores_validos`
in place.  Fixing `B = 1` outside the tree `{A}`, the call succeeds and
leaves `csp.dominios["A"]` pruned from `[0, 1]` to `[0]`. -/
theorem C2_tree_solver_mutates_domains :
    (resolverArbolCsp cspT ["A"] [("B", 1)]).2 "A" = [0] ∧
      cspT.dominios "A" = [0, 1] ∧
      (resolverArbolCsp cspT ["A"] [("B", 1)]).1 = some [("B", 1), ("A", 0)] := by
  decide

/-- C3: the claim that MAC propagates over the current search-state domains
(with `var`'s domain collapsed to `[v]`) fails on the code: after assigning
`A = 0` in the two-variable not-equal CSP, the seeded queue is `[(B, A)]`,
but `ac3` restarts from the canonical domains, so `B`'s domain stays
`[0, 1]` (propagation from the search-state domains would leave `[1]`), and
the recursive call then returns the violating assignment `{A: 0, B: 0}`. -/
theorem C3_mac_propagates_from_canonical :
    ((vecinosDe cspW "A").filter (fun w => !assigned (setA [] "A" 0) w)).map
        (fun w => (w, "A")) = [("B", "A")] ∧
      (ac3From cspW cspW.dominios [("B", "A")]).2 "B" = [0, 1] ∧
      (ac3From cspW (updD cspW.dominios "A" [0]) [("B", "A")]).2 "B" = [1] ∧
      macResolver cspW = some [("A", 0), ("B", 0)] := by
  decide

/-- C4: the claim that the tree solver returns a solution iff one exists
under the fixing fails on the code: on two variables with the single
constraint "A = 1 and B = 1" (a tree, empty cutset fixing), the assignment
pass greedily commits the first value `0` and then fails, returning `None`
although `A = B = 1` is a solution.  (Phase 1 cannot prune against
unassigned subtree variables, because `es_consistente` skips constraints
with unassigned scope variables.) -/
theorem C4_tree_solver_incomplete :
    (resolverArbolCsp csp4 ["A", "B"] []).1 = none ∧ Sat csp4 (fun _ => 1) := by
  constructor
  · decide
  · constructor
    · intro v hv
      simp [csp4]
    · intro c hc hne hsc
      simp [csp4] at hc
      subst hc
      decide

/-- C5 counterexample: with both orientations `(A, B)` (always true) and
`(B, A)` (always false) present as constraint keys, `revisar_arco(A, B)`
keeps the value `0` — yet no partner satisfies *all* constraints on the
pair as the claim requires, so the claimed revision would have emptied the
domain. -/
theorem C5_counter :
    (revisarArco cspC5 "A" "B" cspC5.dominios).2.2 "A" = [0] ∧
      (∀ b ∈ cspC5.dominios "B", specPairCompatible cspC5 "A" 0 "B" b = false) ∧
      (cspC5.dominios "A").filter
        (fun a => (cspC5.dominios "B").any (fun b => specPairCompatible cspC5 "A" a "B" b))
        = [] := by
  decide

/-- C5 amended: the arc revision removes from `Xi`'s domain exactly the
values with no partner compatible per `es_consistente_binaria` — which
consults only the `(Xi, Xj)`-keyed constraint when present, else the
`(Xj, Xi)`-keyed one with swapped arguments, else deems the pair
compatible.  Other domains are untouched; the pruning count and the
changed flag describe exactly the removed values. -/
theorem C5_revise_exact (csp : CSP) (xi xj : String) (doms : String → List Val) :
    (revisarArco csp xi xj doms).2.2 xi =
      (doms xi).filter (fun a => (doms xj).any (fun b => esConsistenteBinaria csp xi a xj b)) ∧
    (∀ y, y ≠ xi → (revisarArco csp xi xj doms).2.2 y = doms y) ∧
    (revisarArco csp xi xj doms).2.1 =
      ((doms xi).filter
        (fun a => !(doms xj).any (fun b => esConsistenteBinaria csp xi a xj b))).length ∧
    ((revisarArco csp xi xj doms).1 = true ↔
      ∃ a ∈ doms xi, ∀ b ∈ doms xj, esConsistenteBinaria csp xi a xj b = false) := by
  refine ⟨?_, ?_, rfl, ?_⟩
  · rw [revisarArco_spec, updD_self]
  · intro y hy
    rw [revisarArco_spec, updD_other _ _ _ hy]
  · unfold revisarArco
    dsimp only
    constructor
    · intro h
      have hne : (doms xi).filter
          (fun a => !(doms xj).any (fun b => esConsistenteBinaria csp xi a xj b)) ≠ [] := by
        intro hnil
        rw [hnil] at h
        simp at h
      obtain ⟨a, ha⟩ := List.exists_mem_of_ne_nil _ hne
      obtain ⟨ha1, ha2⟩ := List.mem_filter.mp ha
      refine ⟨a, ha1, ?_⟩
      intro b hb
      have hany : (doms xj).any (fun b => esConsistenteBinaria csp xi a xj b) = false := by
        simpa using ha2
      rw [List.any_eq_false] at hany
      have := hany b hb
      simpa using this
    · rintro ⟨a, ha, hb⟩
      have hmem : a ∈ (doms xi).filter
          (fun a => !(doms xj).any (fun b => esConsistenteBinaria csp xi a xj b)) := by
        rw [List.mem_filter]
        refine ⟨ha, ?_⟩
        have : (doms xj).any (fun b => esConsistenteBinaria csp xi a xj b) = false := by
          rw [List.any_eq_false]
          intro b hbb
          simp [hb b hbb]
        simp [this]
      have hne : ((doms xi).filter
          (fun a => !(doms xj).any (fun b => esConsistenteBinaria csp xi a xj b))) ≠ [] := by
        intro hnil
        rw [hnil] at hmem
        simp at hmem
      simpa [List.isEmpty_iff] using hne

/-- Witness for C5: on the two-variable not-equal instance, revising the
arc `(A, B)` leaves `B`'s domain untouched (hypothesis `"B" ≠ "A"`
discharged concretely), and `A` keeps exactly the compatible values. -/
theorem C5_revise_exact_witness :
    (revisarArco cspW "A" "B" cspW.dominios).2.2 "B" = cspW.dominios "B" ∧
      (revisarArco cspW "A" "B" cspW.dominios).2.2 "A" =
        (cspW.dominios "A").filter
          (fun a => (cspW.dominios "B").any
            (fun b => esConsistenteBinaria cspW "A" a "B" b)) :=
  ⟨(C5_revise_exact cspW "A" "B" cspW.dominios).2.1 "B" (by decide),
    (C5_revise_exact cspW "A" "B" cspW.dominios).1⟩

/-- C6 counterexample: the claim says the two failure values are distinct,
but on the 2-color triangle min-conflicts with an exhausted budget and the
plain backtracking solver with an exhausted search space return the very
same value `None`. -/
theorem C6_counter :
    minConflicts triangleCsp 3 rngZero = none ∧
      resolverBacktracking triangleCsp = none := by
  decide

/-- C6 amended: a caller cannot distinguish the two outcomes from the
returned value alone — min-conflicts returns `None` whenever its step
budget elapses, and that is exactly the value the backtracking solver
returns on an unsatisfiable CSP. -/
theorem C6_same_failure_value (csp csp2 : CSP) (A : Assignment) (rng : Nat → Nat) (k : Nat)
    (h1 : csp2.vars.Nodup) (h2 : ¬ Satisfiable csp2) :
    minConflictsGo csp 0 A rng k = none ∧ resolverBacktracking csp2 = none := by
  refine ⟨rfl, ?_⟩
  cases hres : resolverBacktracking csp2 with
  | none => rfl
  | some B => exact absurd ((bt_iff_sat h1).mp ⟨B, hres⟩) h2

/-- Witness for C6: both hypotheses discharged on the triangle instance. -/
theorem C6_same_failure_value_witness :
    minConflictsGo triangleCsp 0 [] rngZero 0 = none ∧
      resolverBacktracking triangleCsp = none :=
  C6_same_failure_value triangleCsp triangleCsp [] rngZero 0 (by decide) triangle_unsat

/-- C7 counterexample: a constraint with an empty scope and an always-false
predicate has "fully declared scope variables" vacuously, yet min-conflicts
returns the assignment `{A: 0}` immediately (the violated constraint
contributes no variables to the conflict set), and the result violates the
constraint. -/
theorem C7_counter :
    minConflicts cspE 5 rngZero = some [("A", 0)] ∧
      cumpleTodas cspE [("A", 0)] = false := by
  decide

/-- C7 amended: for CSPs whose constraints all have *nonempty*, fully
declared scopes, whenever `min_conflicts` returns an assignment (for any
budget and any random stream), that assignment is complete (one value per
variable) and satisfies every constraint. -/
theorem C7_min_conflicts_sound (csp : CSP) (pasos : Nat) (rng : Nat → Nat) (B : Assignment)
    (h1 : ∀ c ∈ csp.restricciones, c.1 ≠ [])
    (h2 : ∀ c ∈ csp.restricciones, ∀ x ∈ c.1, x ∈ csp.vars)
    (h : minConflicts csp pasos rng = some B) :
    (∀ v ∈ csp.vars, assigned B v = true) ∧ cumpleTodas csp B = true :=
  minConflictsGo_some h1 h2 pasos _ rng _ B (initialAssign_total csp rng) h

/-- Witness for C7: on a one-variable, constraint-free instance
min-conflicts succeeds and the theorem's hypotheses hold vacuously. -/
theorem C7_min_conflicts_sound_witness :
    (∀ v ∈ cspOne.vars, assigned [("A", (0 : Val))] v = true) ∧
      cumpleTodas cspOne [("A", (0 : Val))] = true :=
  C7_min_conflicts_sound cspOne 1 rngZero [("A", 0)] (by simp [cspOne])
    (by simp [cspOne]) (by decide)

/-- C8: conflict-directed backjumping and plain backtracking agree on
satisfiability — the backjumping solver returns a solution assignment iff
the plain backtracking solver does. -/
theorem C8_backjump_equiv (csp : CSP) (hnd : csp.vars.Nodup) :
    (∃ A, resolverBackjumping csp = some (Sum.inl A)) ↔
      ∃ A, resolverBacktracking csp = some A :=
  (bj_iff_sat hnd).trans (bt_iff_sat hnd).symm

/-- Witness for C8: on the two-variable not-equal instance backtracking
finds `{A: 0, B: 1}`, so backjumping also returns a solution. -/
theorem C8_backjump_equiv_witness :
    ∃ A, resolverBackjumping cspW = some (Sum.inl A) :=
  (C8_backjump_equiv cspW (by decide)).mpr ⟨[("A", 0), ("B", 1)], by decide⟩

/-- C9: every conflict set `_backjump` returns is nonempty, mentions only
variables assigned in the caller's partial assignment, and never the
currently failing variable; consequently the top-level call (empty
assignment) can never surface a conflict set, so `resolver` reports global
failure only via the `FALLO`-to-`None` sentinel. -/
theorem C9_conflict_set_invariant (csp : CSP) (n : Nat) (A : Assignment) (S : List String)
    (hnd : csp.vars.Nodup) (h1 : (keysA A).Nodup) (h2 : ∀ x ∈ keysA A, x ∈ csp.vars)
    (hfuel : uc csp A < n) (h : bjGo csp n A = .conflict S) :
    S ≠ [] ∧ (∀ x ∈ S, assigned A x = true) ∧
      (∀ var, firstUnassigned csp A = some var → var ∉ S) ∧
      ∀ S', resolverBackjumping csp ≠ some (Sum.inr S') := by
  obtain ⟨hS1, _, hS3, _⟩ := (bjGo_main hnd n A h1 h2 hfuel).1 S h
  refine ⟨hS1, hS3, ?_, ?_⟩
  · intro var hfu hvar
    obtain ⟨_, hna⟩ := firstUnassigned_spec hfu
    rw [hS3 var hvar] at hna
    exact Bool.noConfusion hna
  · intro S' hcon
    unfold resolverBackjumping at hcon
    cases hg : bjGo csp (csp.vars.length + 1) [] with
    | solved B =>
      rw [hg] at hcon
      simp at hcon
    | fallo =>
      rw [hg] at hcon
      simp at hcon
    | conflict S'' =>
      have hmain := (bjGo_main hnd (csp.vars.length + 1) [] (by simp [keysA])
        (by simp [keysA]) (Nat.lt_succ_of_le (List.length_filter_le _ _))).1 S'' hg
      obtain ⟨hT1, _, hT3, _⟩ := hmain
      obtain ⟨x, hx⟩ := List.exists_mem_of_ne_nil S'' hT1
      have := hT3 x hx
      simp [assigned, lookupA] at this

/-- Witness for C9: the concrete conflict set `["A"]` produced below `A = 0`
on the unsatisfiable two-variable instance mentions only the assigned
ancestor `A` and not the failing variable `B`. -/
theorem C9_conflict_set_invariant_witness :
    (["A"] : List String) ≠ [] ∧
      (∀ x ∈ (["A"] : List String), assigned [("A", (0 : Val))] x = true) ∧
      ∀ var, firstUnassigned cspU2 [("A", (0 : Val))] = some var → var ∉ (["A"] : List String) := by
  have h := C9_conflict_set_invariant cspU2 2 [("A", (0 : Val))] ["A"] (by decide)
    (by decide) (by decide) (by decide) (by decide)
  exact ⟨h.1, h.2.1, h.2.2.1⟩

/-- C10: for every CSP with declared constraint scopes, a full AC-3 run
never removes a value that participates in a solution — every solution
survives pointwise in the reduced domains, the run reports success, and
each reduced domain is a sublist of the original, so searching over the
reduced domains neither loses nor invents solutions. -/
theorem C10_ac3_sound (csp : CSP) (σ : String → Val)
    (hscope : ∀ c ∈ csp.restricciones, ∀ x ∈ c.1, x ∈ csp.vars) (hσ : Sat csp σ) :
    (ac3Full csp).1 = true ∧ (∀ v ∈ csp.vars, σ v ∈ (ac3Full csp).2 v) ∧
      ∀ v, List.Sublist ((ac3Full csp).2 v) (csp.dominios v) :=
  ac3Full_main hσ hscope

/-- Witness for C10: the solution `A = 0, B = 1` of the two-variable
not-equal instance survives the full AC-3 run, which succeeds. -/
theorem C10_ac3_sound_witness :
    (ac3Full cspW).1 = true ∧ ∀ v ∈ cspW.vars, sigma01 v ∈ (ac3Full cspW).2 v := by
  have hσ : Sat cspW sigma01 := by
    constructor
    · intro v hv
      simp [cspW] at hv
      rcases hv with rfl | rfl <;> decide
    · intro c hc hne hsc
      simp [cspW] at hc
      subst hc
      decide
  have h := C10_ac3_sound cspW sigma01 (by decide) hσ
  exact ⟨h.1, h.2.1⟩
